import Mathlib

/-!
Verification development for the sentiment-analysis pipeline
(`src/weighted_lag_features.py`, `src/stock_prices.py`, `src/news_headlines.py`,
`src/sector_specific_sentiment.py`, `src/etf_transformations.py`).

Dataframes are modelled as lists of records; calendar dates as natural numbers
(any strictly monotone encoding of dates, e.g. days since an epoch; the source
normalizes all `Date` columns to midnight timestamps before use, so a date is a
single integer-like key); float columns as rationals, with `Option` for
NaN/missing cells.  Pandas operations are translated operation by operation
from the source.  Definitions come first, theorems afterwards.
-/

namespace SentimentPipeline

/-! ## Definitions: weighted lag features (`src/weighted_lag_features.py`) -/

/-- `np.dot` on two equal-length vectors. -/
def dotProduct (xs ws : List ℚ) : ℚ := (List.zipWith (· * ·) xs ws).sum

/-- Embedding of `add_weighted_lag_feature` (src/weighted_lag_features.py:4-19),
restricted to the column it computes: `w = weights / weights.sum()`; every row
`i` with `i ≥ k-1` receives `np.dot(values[i-k+1 : i+1], w)`; earlier rows keep
the initial `None`.  (When `weights.sum() == 0` the Python code does not raise:
numpy emits non-finite normalized weights and the column is still produced; the
division below then yields the Lean division-by-zero default instead of those
non-finite floats, but in either semantics an output column of full length is
attached and no exception occurs.) -/
def add_weighted_lag_feature (values : List ℚ) (weights : List ℚ) : List (Option ℚ) :=
  let w := weights.map (· / weights.sum)
  let k := weights.length
  (List.range values.length).map (fun i =>
    if k ≤ i + 1 then some (dotProduct ((values.drop (i + 1 - k)).take k) w) else none)

/-- The dataframe handed to `add_weighted_lag_feature`: the numeric column `col`
plus whatever other (named) columns the frame carries. -/
structure LagDF where
  main : List ℚ
  extra : List (String × List (Option ℚ))
deriving DecidableEq

/-- Embedding of `add_weighted_lag_feature` together with its effect on the
caller's dataframe object: the source executes `df[new_col_name] = result` and
then `return df`, i.e. it appends the new column to the argument **in place**
and returns the very same object (no `df.copy()` anywhere in the function).
The first component is the caller's dataframe as observable after the call;
the second is the returned dataframe. -/
def add_weighted_lag_feature_df (df : LagDF) (weights : List ℚ) (newColName : String) :
    LagDF × LagDF :=
  let result := add_weighted_lag_feature df.main weights
  let dfMutated : LagDF := { df with extra := df.extra ++ [(newColName, result)] }
  (dfMutated, dfMutated)

/-! ## Definitions: sector sentiment aggregation
(`src/sector_specific_sentiment.py`, `src/etf_transformations.py`) -/

/-- One row of the FinBERT-scored headline table, projected to the columns the
aggregators read for one fixed ticker: `Date` (normalized), the
`is_trading_day` column, the sector flag column `df[ticker]` (`== 1` modelled
as `true`), and the three FinBERT scores. -/
structure Headline where
  date : ℕ
  isTradingDay : Bool
  sectorFlag : Bool
  positive : ℚ
  neutral : ℚ
  negative : ℚ
deriving DecidableEq

/-- A row entering `groupby`: the grouping key (`Date`, or `TradingDate` in the
weekend-aggregated policy) plus the three scores. -/
structure ScoreRow where
  key : ℕ
  positive : ℚ
  neutral : ℚ
  negative : ℚ
deriving DecidableEq

/-- One row of the aggregated output: `Date`, `avg_positive_<T>`,
`avg_neutral_<T>`, `avg_negative_<T>`, `n_<T>`, `sent_index_<T>`.  `Option`
models the NaN produced by the low-count suppression. -/
structure AggRow where
  date : ℕ
  avgPositive : Option ℚ
  avgNeutral : Option ℚ
  avgNegative : Option ℚ
  n : ℕ
  sentIndex : Option ℚ
deriving DecidableEq

/-- Arithmetic mean, as pandas `mean` computes it on a non-empty group. -/
def mean (xs : List ℚ) : ℚ := xs.sum / xs.length

/-- The group keys of a pandas `groupby(...)`: the distinct values, sorted
ascending (pandas sorts group keys by default). -/
def sortedKeys (ds : List ℕ) : List ℕ := (ds.dedup).insertionSort (· ≤ ·)

/-- The aggregate row a `groupby(key).agg(...)` block produces for one key `d`:
mean of each score over the group, the group size (the `("positive", "count")`
aggregation counts non-null cells, and every score cell is present), then the
`sent_index = avg_positive - avg_negative` column, then the suppression step
`if min_headlines > 1: ... loc[n < min_headlines, value_cols] = np.nan`.  This
block is written once and reused verbatim by every aggregator variant in the
source. -/
def aggRowAt (rows : List ScoreRow) (minHeadlines : ℕ) (d : ℕ) : AggRow :=
  let g := rows.filter (fun r => r.key = d)
  let avgPos := mean (g.map (·.positive))
  let avgNeu := mean (g.map (·.neutral))
  let avgNeg := mean (g.map (·.negative))
  let row : AggRow :=
    { date := d, avgPositive := some avgPos, avgNeutral := some avgNeu,
      avgNegative := some avgNeg, n := g.length, sentIndex := some (avgPos - avgNeg) }
  if 1 < minHeadlines ∧ g.length < minHeadlines then
    { row with avgPositive := none, avgNeutral := none, avgNegative := none, sentIndex := none }
  else row

/-- `groupby` over the key column followed by the shared aggregation block:
one output row per distinct key, keys ascending. -/
def groupAgg (rows : List ScoreRow) (minHeadlines : ℕ) : List AggRow :=
  (sortedKeys (rows.map (·.key))).map (aggRowAt rows minHeadlines)

/-- Embedding of `compute_sector_daily` (src/sector_specific_sentiment.py:19-60):
keep the headlines whose sector flag is set (`df.loc[df[ticker] == 1, ...]`),
group by `Date`, aggregate.  (The identical groupby/agg/suppression block in
`compute_sector_daily_no_weekends`, src/etf_transformations.py:36-94, is the
same computation.) -/
def compute_sector_daily (df : List Headline) (minHeadlines : ℕ) : List AggRow :=
  groupAgg ((df.filter (·.sectorFlag)).map
    (fun h => ⟨h.date, h.positive, h.neutral, h.negative⟩)) minHeadlines

/-- The sector-tagged headlines of one day — the reference value the claims
compare counts and means against. -/
def sectorOn (df : List Headline) (d : ℕ) : List Headline :=
  df.filter (fun h => h.sectorFlag ∧ h.date = d)

/-- The headline dataframe as an object, for the copy-on-transform claim. -/
structure NewsDF where
  rows : List Headline
deriving DecidableEq

/-- `compute_sector_daily` together with its effect on the caller's dataframe:
the source's first statement is `df = df.copy()`, so the subsequent
`df["Date"] = ...` assignment mutates only the copy; the caller's frame is
returned unchanged alongside the fresh aggregate frame. -/
def compute_sector_daily_df (df : NewsDF) (minHeadlines : ℕ) : NewsDF × List AggRow :=
  (df, compute_sector_daily df.rows minHeadlines)

/-- One row of the embedding-bearing headline table, projected to the columns
`compute_sector_and_embeddings_daily_no_weekends` reads for one fixed ticker:
`Date`, the sector flag `df[ticker] == 1`, the three FinBERT scores, and the
`emb_*` columns as one vector (entry j is the value of the j-th embedding
column). -/
structure HeadlineEmb where
  date : ℕ
  sectorFlag : Bool
  positive : ℚ
  neutral : ℚ
  negative : ℚ
  embedding : List ℚ
deriving DecidableEq

/-- One row of the embedding-bearing aggregate output: the score aggregates
and count as in `AggRow`, plus the element-wise embedding averages; `Option`
on the vector models the NaN the suppression writes into every `emb_*`
column. -/
structure AggRowEmb where
  date : ℕ
  avgPositive : Option ℚ
  avgNeutral : Option ℚ
  avgNegative : Option ℚ
  n : ℕ
  sentIndex : Option ℚ
  avgEmbedding : Option (List ℚ)
deriving DecidableEq

/-- `groupby("Date")[emb_cols].mean()`: pandas averages each `emb_` column
independently, so entry j of the result is the mean of entry j over the
group's rows.  `numEmb` is the number of `emb_*` columns; every row carries
one value per column, so the `getD` default is never consulted on table-shaped
data. -/
def meanVec (numEmb : ℕ) (vs : List (List ℚ)) : List ℚ :=
  (List.range numEmb).map (fun j => mean (vs.map (fun v => v.getD j 0)))

/-- The row `compute_sector_and_embeddings_daily_no_weekends` produces for one
group key `d`: the shared score-aggregation block, the element-wise embedding
means, and the suppression step
`out.loc[too_few, [avg_*, sent_index, *emb_out_cols]] = np.nan`
(src/etf_transformations.py:153-162), which nulls the embedding averages along
with the score aggregates but not the count. -/
def aggRowEmbAt (rows : List HeadlineEmb) (numEmb minHeadlines d : ℕ) : AggRowEmb :=
  let g := rows.filter (fun h => h.date = d)
  let avgPos := mean (g.map (·.positive))
  let avgNeu := mean (g.map (·.neutral))
  let avgNeg := mean (g.map (·.negative))
  let row : AggRowEmb :=
    { date := d, avgPositive := some avgPos, avgNeutral := some avgNeu,
      avgNegative := some avgNeg, n := g.length,
      sentIndex := some (avgPos - avgNeg),
      avgEmbedding := some (meanVec numEmb (g.map (·.embedding))) }
  if 1 < minHeadlines ∧ g.length < minHeadlines then
    { row with
        avgPositive := none, avgNeutral := none, avgNegative := none,
        sentIndex := none, avgEmbedding := none }
  else row

/-- Embedding of `compute_sector_and_embeddings_daily_no_weekends`
(src/etf_transformations.py:98-172), restricted to the per-sector aggregate
table it builds before the final left-merge onto the ETF frame: keep the
sector-tagged rows, group by `Date` for the score aggregates and
`sent_index`, group the same rows by `Date` again for the element-wise means
of the `emb_*` columns, merge the two frames on `Date` (both groupbys share
one key set, so the left merge pairs their rows one-to-one), then suppress. -/
def compute_sector_and_embeddings_daily_no_weekends (df : List HeadlineEmb)
    (numEmb minHeadlines : ℕ) : List AggRowEmb :=
  let sector := df.filter (·.sectorFlag)
  (sortedKeys (sector.map (·.date))).map (aggRowEmbAt sector numEmb minHeadlines)

/-- The sector-tagged embedding-bearing headlines of one day. -/
def sectorOnEmb (df : List HeadlineEmb) (d : ℕ) : List HeadlineEmb :=
  df.filter (fun h => h.sectorFlag ∧ h.date = d)

/-! ## Definitions: return series (`src/stock_prices.py`,
`src/sector_specific_sentiment.py`) -/

/-- A row of a raw price CSV after column renaming: `Date`, `Price`. -/
structure RawPriceRow where
  date : ℕ
  price : ℚ
deriving DecidableEq

/-- `np.sign` on a (non-NaN) float. -/
def ratSign (q : ℚ) : Int := if q < 0 then -1 else if q = 0 then 0 else 1

/-- pandas `Series.pct_change()`: first cell NaN, then `p[i]/p[i-1] - 1`, in
the order the rows currently have. -/
def pct_change (prices : List ℚ) : List (Option ℚ) :=
  match prices with
  | [] => []
  | _ :: rest => none :: List.zipWith (fun prev cur => some (cur / prev - 1)) prices rest

/-- Embedding of the return/sign computation of `preprocess_file`
(src/stock_prices.py:19-31): the code parses dates and then immediately runs
`data["Return"] = data["Price"].pct_change()` and
`data["Sign"] = np.sign(data["Return"])` in the file's row order — there is no
sort and no duplicate-date check anywhere in the function, although its
docstring says "sorts by Date".  Output: (row, Return, Sign) triples. -/
def preprocess_file (rows : List RawPriceRow) : List (RawPriceRow × Option ℚ × Option Int) :=
  let rets := pct_change (rows.map (·.price))
  rows.zip (rets.map (fun r => (r, r.map ratSign)))

/-- The same computation as `preprocess_file`'s own docstring describes it
("sorts by Date, calculates the daily return and its sign"): sort ascending by
date first, then compute. -/
def preprocess_file_sorted (rows : List RawPriceRow) :
    List (RawPriceRow × Option ℚ × Option Int) :=
  preprocess_file (rows.insertionSort (fun a b => a.date ≤ b.date))

/-- A preprocessed ETF row — the CSV columns `add_next_day_cols_FIXED` loads:
`Date`, `Price`, `Return`, `Sign`. -/
structure PriceRow where
  date : ℕ
  price : ℚ
  ret : Option ℚ
  sign : Option Int
deriving DecidableEq

/-- A price row after the next-day target columns are added. -/
structure PriceRowNext where
  row : PriceRow
  returnNextDay : Option ℚ
  signNextDay : Option Int
deriving DecidableEq

/-- `Series.shift(-1)` applied to the `Return` and `Sign` columns at once: row
i receives row i+1's values; the last row receives NaN. -/
def shiftNextDay : List PriceRow → List PriceRowNext
  | [] => []
  | r :: rest =>
    match rest with
    | [] => [⟨r, none, none⟩]
    | r' :: _ => ⟨r, r'.ret, r'.sign⟩ :: shiftNextDay rest

/-- Embedding of `add_next_day_cols_FIXED`
(src/sector_specific_sentiment.py:63-83): sort the (trading-day-only) price
table ascending by `Date` ("Sort to be safe"), then
`Return_next_day = Return.shift(-1)` and `Sign_next_day = Sign.shift(-1)` —
the shift happens while the table contains only trading days, before any merge
introduces calendar filler rows. -/
def add_next_day_cols_FIXED (rows : List PriceRow) : List PriceRowNext :=
  shiftNextDay (rows.insertionSort (fun a b => a.date ≤ b.date))

/-! ## Definitions: next-trading-day remapping (`src/etf_transformations.py`) -/

/-- The `is_trading_day` flag attached to one date of the headline table, as
`drop_duplicates("Date")` extracts it: the flag of the first row carrying that
date (under the per-date consistency hypothesis of the theorems below, the
flag of every row carrying it); `false` as the irrelevant default for a date
not in the table. -/
def flagOfDate (news : List Headline) (d : ℕ) : Bool :=
  ((news.find? (fun h => h.date = d)).map (·.isTradingDay)).getD false

/-- The `date_flags` frame of `aggregate_to_next_trading_day_with_sectors`:
`news_df[["Date", "is_trading_day"]].drop_duplicates("Date").sort_values("Date")`
— the distinct dates, ascending, each with its trading-day flag. -/
def dateFlags (news : List Headline) : List (ℕ × Bool) :=
  (sortedKeys (news.map (·.date))).map (fun d => (d, flagOfDate news d))

/-- `date_flags["TradingDate"] = date_flags["Date"].where(is_trading_day == 1)`
followed by `.bfill()`: a trading day keeps its own date; a non-trading day
receives the next non-null value below it in the (date-ascending) frame; a
trailing run of non-trading days stays null. -/
def bfillTradingDate : List (ℕ × Bool) → List (ℕ × Option ℕ)
  | [] => []
  | (d, f) :: rest =>
    let r := bfillTradingDate rest
    (d, if f then some d else r.head?.bind (·.2)) :: r

/-- The `TradingDate` a given headline date is sent to by the
`news_df.merge(date_flags[["Date", "TradingDate"]], on="Date")` join:
`none` models the NaN of a date with no trading day at or after it. -/
def tradingDateOf (news : List Headline) (d : ℕ) : Option ℕ :=
  ((bfillTradingDate (dateFlags news)).lookup d).join

/-- Whether some row of the headline table marks date `d` a trading day. -/
def dateIsTrading (news : List Headline) (d : ℕ) : Bool :=
  news.any (fun h => h.date = d && h.isTradingDay)

/-- The first flagged entry of the date/flag frame at or after `d` — the value
`bfill` materializes at `d`, by the lemmas below. -/
def firstTradingGE (l : List (ℕ × Bool)) (d : ℕ) : Option ℕ :=
  ((l.filter (fun p => decide (d ≤ p.1) && p.2)).head?).map (·.1)

/-- Embedding of `aggregate_to_next_trading_day_with_sectors`
(src/etf_transformations.py:176-230), restricted to the sentiment table it
builds before the final left-merge onto the ETF frame: attach to every
headline its `TradingDate`, drop the rows whose `TradingDate` is null
(`dropna(subset=["TradingDate"])` — there is no error path), keep the
sector-tagged rows, group by `TradingDate` with the shared aggregation block,
and rename `TradingDate` to `Date`.  (The embedding-bearing variant
`aggregate_to_next_trading_day_sector_with_embeddings`,
src/etf_transformations.py:233-297, computes the same date mapping, dropna and
group keys.) -/
def aggregate_to_next_trading_day_with_sectors (news : List Headline)
    (minHeadlines : ℕ) : List AggRow :=
  let withTD := news.filterMap
    (fun h => (tradingDateOf news h.date).map (fun td => (h, td)))
  let sector := withTD.filter (fun p => p.1.sectorFlag)
  groupAgg (sector.map (fun p => ⟨p.2, p.1.positive, p.1.neutral, p.1.negative⟩))
    minHeadlines

/-- The `is_trading_day` column is a function of the date (the source computes
it from the NYSE schedule per date, `is_trading_day_column`,
src/etf_transformations.py:24-32); without this, `drop_duplicates("Date")`
would pick an arbitrary representative. -/
def Consistent (news : List Headline) : Prop :=
  ∀ h ∈ news, ∀ h' ∈ news, h.date = h'.date → h.isTradingDay = h'.isTradingDay

/-- Three-day example table for the witnesses: a trading day 1, a non-trading
day 2, a trading day 3, all sector-tagged. -/
def newsExample : List Headline :=
  [⟨1, true, true, 1, 0, 0⟩, ⟨2, false, true, 1, 0, 0⟩, ⟨3, true, true, 1, 0, 0⟩]

/-- One headline on a non-trading day with no trading day after it. -/
def newsNoNext : List Headline := [⟨1, false, true, 1, 0, 0⟩]

/-! ## Definitions: headline cleaning (`src/news_headlines.py`)

A string is a list of Unicode code points (ℕ).  `clean_headlines`
(src/news_headlines.py:54-70) converts to str (identity on strings), applies
`str.normalize("NFKC")`, removes the zero-width characters
`[​-‍⁠﻿]`, collapses every whitespace run to a single
space, and strips both ends.  NFKC is modelled by the exact Unicode data of
the code points this development evaluates it on: the only non-trivial
decomposition is U+00E1 → U+0061 U+0301, the only primary composite is
U+0061 + U+0301 → U+00E1, and the only code point with non-zero canonical
combining class is U+0301 (ccc 230).  In such a fragment the canonical
reordering pass is the identity, and the canonical composition pass composes
exactly adjacent pairs (a non-adjacent mark is blocked by the intervening
character, which necessarily has ccc 0 or equal ccc). -/

/-- The zero-width characters removed by the regex
`[​-‍⁠﻿]`. -/
def zeroWidthChars : List ℕ := [0x200B, 0x200C, 0x200D, 0x2060, 0xFEFF]

/-- Code points Python's `\s` (and `str.strip()`) treat as whitespace. -/
def wsChars : List ℕ :=
  [0x9, 0xA, 0xB, 0xC, 0xD, 0x1C, 0x1D, 0x1E, 0x1F, 0x20, 0x85, 0xA0, 0x1680,
   0x2000, 0x2001, 0x2002, 0x2003, 0x2004, 0x2005, 0x2006, 0x2007, 0x2008,
   0x2009, 0x200A, 0x2028, 0x2029, 0x202F, 0x205F, 0x3000]

/-- Whitespace test. -/
def isWs (c : ℕ) : Bool := wsChars.contains c

/-- NFKC decomposition on the modelled fragment of the Unicode tables. -/
def decomp (c : ℕ) : List ℕ := if c = 0xE1 then [0x61, 0x301] else [c]

/-- Canonical composition of a pair, on the modelled fragment. -/
def composePair (a b : ℕ) : Option ℕ :=
  if a = 0x61 ∧ b = 0x301 then some 0xE1 else none

/-- The canonical composition pass: compose adjacent pairs (exact on this
fragment, where a composed character never composes further and every blocker
has combining class 0 or equal class). -/
def composeFrag : List ℕ → List ℕ
  | [] => []
  | a :: rest =>
    match composeFrag rest with
    | [] => [a]
    | b :: rest' =>
      match composePair a b with
      | some c => c :: rest'
      | none => a :: b :: rest'

/-- `str.normalize("NFKC")`: decompose, (reorder — identity here), compose. -/
def nfkc (s : List ℕ) : List ℕ := composeFrag (s.flatMap decomp)

/-- `str.replace(r"[​-‍⁠﻿]", "", regex=True)`. -/
def removeZeroWidth (s : List ℕ) : List ℕ :=
  s.filter (fun c => !(zeroWidthChars.contains c))

/-- `str.replace(r"\s+", " ", regex=True)`: every maximal whitespace run
becomes one space (0x20).  The Boolean argument records whether the previous
character was whitespace (i.e. whether we are inside a run already emitted). -/
def collapseWsAux : Bool → List ℕ → List ℕ
  | _, [] => []
  | prevWs, c :: rest =>
    if isWs c then
      if prevWs then collapseWsAux true rest
      else 0x20 :: collapseWsAux true rest
    else c :: collapseWsAux false rest

/-- The whitespace-collapsing pass. -/
def collapseWs (s : List ℕ) : List ℕ := collapseWsAux false s

/-- `str.strip()`: drop whitespace from both ends. -/
def stripWs (s : List ℕ) : List ℕ :=
  ((s.dropWhile isWs).reverse.dropWhile isWs).reverse

/-- Embedding of `clean_headlines` (src/news_headlines.py:54-70) on one
string. -/
def clean_headlines (s : List ℕ) : List ℕ :=
  stripWs (collapseWs (removeZeroWidth (nfkc s)))

/-- `clean_headlines` on a pandas Series of strings (elementwise). -/
def clean_headlines_series (ss : List (List ℕ)) : List (List ℕ) :=
  ss.map clean_headlines

/-! ## Theorems -/

theorem add_weighted_lag_feature_length (values weights : List ℚ) :
    (add_weighted_lag_feature values weights).length = values.length := by
  simp [add_weighted_lag_feature]

theorem add_weighted_lag_feature_getElem (values weights : List ℚ) (i : ℕ)
    (hi : i < values.length) :
    (add_weighted_lag_feature values weights)[i]? =
      some (if weights.length ≤ i + 1 then
        some (dotProduct ((values.drop (i + 1 - weights.length)).take weights.length)
          (weights.map (· / weights.sum)))
      else none) := by
  simp [add_weighted_lag_feature, List.getElem?_map, List.getElem?_range, hi]

/-- C7: for every numeric column of length n and weight sequence of length k with
positive sum, the Weighted Lag Feature Generator assigns to every row i ≥ k-1 the
dot product of the values at positions i-k+1..i with the weights normalized to
sum to 1, assigns a missing value to every row i < k-1, and never reads a value
at any position greater than i (the output at i only depends on the first i+1
values). -/
theorem C7_weighted_lag_contract (values weights : List ℚ)
    (hk : 1 ≤ weights.length) (hpos : 0 < weights.sum) :
    (add_weighted_lag_feature values weights).length = values.length ∧
    (∀ i, i < values.length → weights.length - 1 ≤ i →
      (add_weighted_lag_feature values weights)[i]? =
        some (some (dotProduct ((values.drop (i + 1 - weights.length)).take weights.length)
          (weights.map (· / weights.sum))))) ∧
    (∀ i, i < values.length → i < weights.length - 1 →
      (add_weighted_lag_feature values weights)[i]? = some none) ∧
    (∀ i, i < values.length → ∀ values₂ : List ℚ, values₂.length = values.length →
      values₂.take (i + 1) = values.take (i + 1) →
      (add_weighted_lag_feature values₂ weights)[i]? =
        (add_weighted_lag_feature values weights)[i]?) := by
  refine ⟨add_weighted_lag_feature_length values weights, ?_, ?_, ?_⟩
  · intro i hi hki
    rw [add_weighted_lag_feature_getElem values weights i hi]
    have : weights.length ≤ i + 1 := by omega
    simp [this]
  · intro i hi hki
    rw [add_weighted_lag_feature_getElem values weights i hi]
    have : ¬ weights.length ≤ i + 1 := by omega
    simp [this]
  · intro i hi values₂ hlen htake
    have hi₂ : i < values₂.length := by omega
    rw [add_weighted_lag_feature_getElem values weights i hi,
        add_weighted_lag_feature_getElem values₂ weights i hi₂]
    by_cases hk' : weights.length ≤ i + 1
    · -- the window read at row i is a segment of the first i+1 values
      have hwin : (values₂.drop (i + 1 - weights.length)).take weights.length =
          (values.drop (i + 1 - weights.length)).take weights.length := by
        have h₂ : (values₂.take (i + 1)).drop (i + 1 - weights.length) =
            (values₂.drop (i + 1 - weights.length)).take weights.length := by
          rw [List.drop_take]
          congr 1
          omega
        have h₁ : (values.take (i + 1)).drop (i + 1 - weights.length) =
            (values.drop (i + 1 - weights.length)).take weights.length := by
          rw [List.drop_take]
          congr 1
          omega
        rw [← h₁, ← h₂, htake]
      rw [hwin]
    · simp [hk']

/-- Witness for C7 at the spec's own example: weights [1,2,3], values
[10,20,30,40]; index 2 yields 70/3, index 3 yields 100/3, indices 0 and 1 are
missing. -/
theorem C7_weighted_lag_witness :
    (1 ≤ ([1, 2, 3] : List ℚ).length ∧ 0 < ([1, 2, 3] : List ℚ).sum) ∧
    (add_weighted_lag_feature [10, 20, 30, 40] [1, 2, 3])[2]? = some (some (70/3)) ∧
    (add_weighted_lag_feature [10, 20, 30, 40] [1, 2, 3])[3]? = some (some (100/3)) ∧
    (add_weighted_lag_feature [10, 20, 30, 40] [1, 2, 3])[0]? = some none ∧
    (add_weighted_lag_feature [10, 20, 30, 40] [1, 2, 3])[1]? = some none := by
  have h := C7_weighted_lag_contract [10, 20, 30, 40] [1, 2, 3] (by norm_num) (by norm_num)
  refine ⟨⟨by norm_num, by norm_num⟩, ?_, ?_, ?_, ?_⟩
  · rw [h.2.1 2 (by norm_num) (by norm_num)]
    norm_num [dotProduct]
  · rw [h.2.1 3 (by norm_num) (by norm_num)]
    norm_num [dotProduct]
  · exact h.2.2.1 0 (by norm_num) (by norm_num)
  · exact h.2.2.1 1 (by norm_num) (by norm_num)

/-- C8 counterexample: for weights [1, -1] (sum 0) and values [10, 20] the
function does not fail — there is no `InvalidWeightsError` anywhere in the
source; `w / w.sum()` divides by zero (numpy emits non-finite weights plus a
runtime warning) and a full-length output column is still attached. -/
theorem C8_zero_weights_counterexample :
    (add_weighted_lag_feature [10, 20] [1, -1]).length = 2 ∧
    (add_weighted_lag_feature [10, 20] [1, -1])[0]? = some none := by
  constructor
  · rw [add_weighted_lag_feature_length]
    norm_num
  · rw [add_weighted_lag_feature_getElem _ _ 0 (by norm_num)]
    norm_num

/-- C8 amended: for every weight sequence summing to zero the generator raises
no error; it still produces an output column of the input column's length
(whose values are the garbage of a division by zero rather than a signalled
failure). -/
theorem C8_zero_weights_amended (values weights : List ℚ) (hzero : weights.sum = 0) :
    (add_weighted_lag_feature values weights).length = values.length ∧
    (∀ i, i < values.length → ∃ v, (add_weighted_lag_feature values weights)[i]? = some v) := by
  refine ⟨add_weighted_lag_feature_length values weights, ?_⟩
  intro i hi
  rw [add_weighted_lag_feature_getElem values weights i hi]
  exact ⟨_, rfl⟩

theorem C8_zero_weights_amended_witness :
    ([1, -1] : List ℚ).sum = 0 ∧
    ((add_weighted_lag_feature [10, 20] [1, -1]).length = ([10, 20] : List ℚ).length ∧
     (∀ i, i < ([10, 20] : List ℚ).length →
       ∃ v, (add_weighted_lag_feature [10, 20] [1, -1])[i]? = some v)) :=
  ⟨by norm_num, C8_zero_weights_amended [10, 20] [1, -1] (by norm_num)⟩

theorem mem_sortedKeys {ds : List ℕ} {d : ℕ} : d ∈ sortedKeys ds ↔ d ∈ ds := by
  unfold sortedKeys
  rw [(List.perm_insertionSort _ _).mem_iff, List.mem_dedup]

theorem aggRowAt_date (rows : List ScoreRow) (m d : ℕ) : (aggRowAt rows m d).date = d := by
  unfold aggRowAt
  dsimp only
  split <;> rfl

theorem mem_groupAgg {rows : List ScoreRow} {m : ℕ} {row : AggRow}
    (h : row ∈ groupAgg rows m) :
    ∃ d, d ∈ rows.map (·.key) ∧ row.date = d ∧ aggRowAt rows m d = row := by
  unfold groupAgg at h
  rcases List.mem_map.mp h with ⟨d, hd, hrow⟩
  exact ⟨d, mem_sortedKeys.mp hd, by rw [← hrow, aggRowAt_date], hrow⟩

theorem aggRowAt_of_suppressed (rows : List ScoreRow) (m d : ℕ)
    (h1 : 1 < m) (h2 : (rows.filter (fun r => r.key = d)).length < m) :
    aggRowAt rows m d =
      ⟨d, none, none, none, (rows.filter (fun r => r.key = d)).length, none⟩ := by
  unfold aggRowAt
  dsimp only
  rw [if_pos ⟨h1, h2⟩]

theorem aggRowAt_of_kept (rows : List ScoreRow) (m d : ℕ)
    (h : ¬(1 < m ∧ (rows.filter (fun r => r.key = d)).length < m)) :
    aggRowAt rows m d =
      ⟨d, some (mean ((rows.filter (fun r => r.key = d)).map (·.positive))),
        some (mean ((rows.filter (fun r => r.key = d)).map (·.neutral))),
        some (mean ((rows.filter (fun r => r.key = d)).map (·.negative))),
        (rows.filter (fun r => r.key = d)).length,
        some (mean ((rows.filter (fun r => r.key = d)).map (·.positive)) -
          mean ((rows.filter (fun r => r.key = d)).map (·.negative)))⟩ := by
  unfold aggRowAt
  dsimp only
  rw [if_neg h]

/-- Projection of a headline to the row `groupby("Date")` consumes. -/
theorem sector_filter_eq (df : List Headline) (d : ℕ) :
    ((df.filter (·.sectorFlag)).map
      (fun h => (⟨h.date, h.positive, h.neutral, h.negative⟩ : ScoreRow))).filter
      (fun r => r.key = d) =
    (sectorOn df d).map
      (fun h => (⟨h.date, h.positive, h.neutral, h.negative⟩ : ScoreRow)) := by
  rw [List.filter_map]
  unfold sectorOn
  congr 1
  rw [List.filter_filter]
  apply List.filter_congr
  intro h _
  by_cases hf : h.sectorFlag <;> by_cases hd : h.date = d <;>
    simp [hf, hd, Function.comp]

/-- Full characterization of a `compute_sector_daily` output row: accurate
count, suppressed fields below the minimum, computed fields otherwise.
Shared backbone of the suppression and sentiment-index claims. -/
theorem compute_sector_daily_row_spec (df : List Headline) (m : ℕ) (row : AggRow)
    (hrow : row ∈ compute_sector_daily df m) :
    row.n = (sectorOn df row.date).length ∧
    (row.n < m → row.avgPositive = none ∧ row.avgNeutral = none ∧
      row.avgNegative = none ∧ row.sentIndex = none) ∧
    (m ≤ row.n →
      row.avgPositive = some (mean ((sectorOn df row.date).map (·.positive))) ∧
      row.avgNeutral = some (mean ((sectorOn df row.date).map (·.neutral))) ∧
      row.avgNegative = some (mean ((sectorOn df row.date).map (·.negative))) ∧
      row.sentIndex = some (mean ((sectorOn df row.date).map (·.positive)) -
        mean ((sectorOn df row.date).map (·.negative)))) := by
  unfold compute_sector_daily at hrow
  rcases mem_groupAgg hrow with ⟨d, hdmem, hdate, heq⟩
  rw [hdate]
  have hfil := sector_filter_eq df d
  have hlen : (((df.filter (·.sectorFlag)).map
      (fun h => (⟨h.date, h.positive, h.neutral, h.negative⟩ : ScoreRow))).filter
      (fun r => r.key = d)).length = (sectorOn df d).length := by
    rw [hfil, List.length_map]
  have hone : 1 ≤ (sectorOn df d).length := by
    rcases List.mem_map.mp hdmem with ⟨r, hr, hkey⟩
    rcases List.mem_map.mp hr with ⟨h, hh, hproj⟩
    have hhd : h.date = d := by rw [← hkey, ← hproj]
    have hflag := (List.mem_filter.mp hh).2
    have : h ∈ sectorOn df d := by
      apply List.mem_filter.mpr
      refine ⟨(List.mem_filter.mp hh).1, ?_⟩
      simp only [decide_eq_true_eq]
      exact ⟨by simpa using hflag, hhd⟩
    have := List.length_pos.mpr (List.ne_nil_of_mem this)
    omega
  by_cases hc : 1 < m ∧ (((df.filter (·.sectorFlag)).map
      (fun h => (⟨h.date, h.positive, h.neutral, h.negative⟩ : ScoreRow))).filter
      (fun r => r.key = d)).length < m
  · rw [← heq, aggRowAt_of_suppressed _ _ _ hc.1 hc.2]
    refine ⟨hlen, fun _ => ⟨rfl, rfl, rfl, rfl⟩, fun hm => ?_⟩
    exact absurd hm (by simp only; omega)
  · rw [← heq, aggRowAt_of_kept _ _ _ hc]
    have hmaps : ∀ f : ScoreRow → ℚ,
        ((((df.filter (·.sectorFlag)).map
          (fun h => (⟨h.date, h.positive, h.neutral, h.negative⟩ : ScoreRow))).filter
          (fun r => r.key = d)).map f) =
        (sectorOn df d).map
          (fun h => f ⟨h.date, h.positive, h.neutral, h.negative⟩) := by
      intro f
      rw [hfil, List.map_map]
      rfl
    refine ⟨hlen, fun hlt => ?_, fun _ => ?_⟩
    · exact absurd hlt (by simp only; omega)
    · refine ⟨?_, ?_, ?_, ?_⟩ <;> simp only [hmaps]

theorem aggRowEmbAt_date (rows : List HeadlineEmb) (k m d : ℕ) :
    (aggRowEmbAt rows k m d).date = d := by
  unfold aggRowEmbAt
  dsimp only
  split <;> rfl

theorem aggRowEmbAt_of_suppressed (rows : List HeadlineEmb) (k m d : ℕ)
    (h1 : 1 < m) (h2 : (rows.filter (fun h => h.date = d)).length < m) :
    aggRowEmbAt rows k m d =
      ⟨d, none, none, none, (rows.filter (fun h => h.date = d)).length, none, none⟩ := by
  unfold aggRowEmbAt
  dsimp only
  rw [if_pos ⟨h1, h2⟩]

theorem aggRowEmbAt_of_kept (rows : List HeadlineEmb) (k m d : ℕ)
    (h : ¬(1 < m ∧ (rows.filter (fun h => h.date = d)).length < m)) :
    aggRowEmbAt rows k m d =
      ⟨d, some (mean ((rows.filter (fun h => h.date = d)).map (·.positive))),
        some (mean ((rows.filter (fun h => h.date = d)).map (·.neutral))),
        some (mean ((rows.filter (fun h => h.date = d)).map (·.negative))),
        (rows.filter (fun h => h.date = d)).length,
        some (mean ((rows.filter (fun h => h.date = d)).map (·.positive)) -
          mean ((rows.filter (fun h => h.date = d)).map (·.negative))),
        some (meanVec k ((rows.filter (fun h => h.date = d)).map (·.embedding)))⟩ := by
  unfold aggRowEmbAt
  dsimp only
  rw [if_neg h]

theorem sectorEmb_filter_eq (df : List HeadlineEmb) (d : ℕ) :
    (df.filter (·.sectorFlag)).filter (fun h => h.date = d) = sectorOnEmb df d := by
  rw [List.filter_filter]
  unfold sectorOnEmb
  apply List.filter_congr
  intro h _
  by_cases hf : h.sectorFlag <;> by_cases hd : h.date = d <;>
    simp [hf, hd]

/-- Full characterization of one output row of the embedding-bearing variant:
accurate count, all six value fields (the embedding averages included) nulled
below the minimum, computed values otherwise. -/
theorem compute_sector_emb_row_spec (df : List HeadlineEmb) (k m : ℕ)
    (rowe : AggRowEmb)
    (hrowe : rowe ∈ compute_sector_and_embeddings_daily_no_weekends df k m) :
    rowe.n = (sectorOnEmb df rowe.date).length ∧
    (rowe.n < m → rowe.avgPositive = none ∧ rowe.avgNeutral = none ∧
      rowe.avgNegative = none ∧ rowe.sentIndex = none ∧ rowe.avgEmbedding = none) ∧
    (m ≤ rowe.n →
      rowe.avgPositive = some (mean ((sectorOnEmb df rowe.date).map (·.positive))) ∧
      rowe.avgNeutral = some (mean ((sectorOnEmb df rowe.date).map (·.neutral))) ∧
      rowe.avgNegative = some (mean ((sectorOnEmb df rowe.date).map (·.negative))) ∧
      rowe.sentIndex = some (mean ((sectorOnEmb df rowe.date).map (·.positive)) -
        mean ((sectorOnEmb df rowe.date).map (·.negative))) ∧
      rowe.avgEmbedding =
        some (meanVec k ((sectorOnEmb df rowe.date).map (·.embedding)))) := by
  unfold compute_sector_and_embeddings_daily_no_weekends at hrowe
  rcases List.mem_map.mp hrowe with ⟨d, hd, heq⟩
  have hdate : rowe.date = d := by rw [← heq, aggRowEmbAt_date]
  rw [hdate]
  have hfil := sectorEmb_filter_eq df d
  have hlen : ((df.filter (·.sectorFlag)).filter (fun h => h.date = d)).length =
      (sectorOnEmb df d).length := by rw [hfil]
  have hone : 1 ≤ (sectorOnEmb df d).length := by
    rcases List.mem_map.mp (mem_sortedKeys.mp hd) with ⟨h, hh, hhd⟩
    have hmem : h ∈ sectorOnEmb df d := by
      rw [← hfil]
      exact List.mem_filter.mpr ⟨hh, by simp [hhd]⟩
    have := List.length_pos.mpr (List.ne_nil_of_mem hmem)
    omega
  by_cases hc : 1 < m ∧
      ((df.filter (·.sectorFlag)).filter (fun h => h.date = d)).length < m
  · rw [← heq, aggRowEmbAt_of_suppressed _ _ _ _ hc.1 hc.2]
    refine ⟨hlen, fun _ => ⟨rfl, rfl, rfl, rfl, rfl⟩, fun hm => ?_⟩
    exact absurd hm (by simp only; omega)
  · rw [← heq, aggRowEmbAt_of_kept _ _ _ _ hc, hfil]
    refine ⟨rfl, fun hlt => ?_, fun _ => ⟨rfl, rfl, rfl, rfl, rfl⟩⟩
    exact absurd hlt (by simp only; omega)

/-- C5: in both cited aggregators — `compute_sector_daily` and the
embedding-bearing `compute_sector_and_embeddings_daily_no_weekends` — every
output row whose headline count is strictly below the configured minimum m has
all aggregate value fields (avg_positive, avg_neutral, avg_negative,
sentiment_index, and the embedding averages when present) set to missing while
its count field equals the true number of sector-tagged headlines on that
date; rows with count at least m keep all computed values. -/
theorem C5_low_count_suppression (df : List Headline) (dfe : List HeadlineEmb)
    (k m : ℕ) (row : AggRow) (rowe : AggRowEmb)
    (hrow : row ∈ compute_sector_daily df m)
    (hrowe : rowe ∈ compute_sector_and_embeddings_daily_no_weekends dfe k m) :
    (row.n = (sectorOn df row.date).length ∧
     (row.n < m → row.avgPositive = none ∧ row.avgNeutral = none ∧
       row.avgNegative = none ∧ row.sentIndex = none) ∧
     (m ≤ row.n →
       row.avgPositive = some (mean ((sectorOn df row.date).map (·.positive))) ∧
       row.avgNeutral = some (mean ((sectorOn df row.date).map (·.neutral))) ∧
       row.avgNegative = some (mean ((sectorOn df row.date).map (·.negative))) ∧
       row.sentIndex = some (mean ((sectorOn df row.date).map (·.positive)) -
         mean ((sectorOn df row.date).map (·.negative))))) ∧
    (rowe.n = (sectorOnEmb dfe rowe.date).length ∧
     (rowe.n < m → rowe.avgPositive = none ∧ rowe.avgNeutral = none ∧
       rowe.avgNegative = none ∧ rowe.sentIndex = none ∧
       rowe.avgEmbedding = none) ∧
     (m ≤ rowe.n →
       rowe.avgPositive = some (mean ((sectorOnEmb dfe rowe.date).map (·.positive))) ∧
       rowe.avgNeutral = some (mean ((sectorOnEmb dfe rowe.date).map (·.neutral))) ∧
       rowe.avgNegative = some (mean ((sectorOnEmb dfe rowe.date).map (·.negative))) ∧
       rowe.sentIndex = some (mean ((sectorOnEmb dfe rowe.date).map (·.positive)) -
         mean ((sectorOnEmb dfe rowe.date).map (·.negative))) ∧
       rowe.avgEmbedding =
         some (meanVec k ((sectorOnEmb dfe rowe.date).map (·.embedding))))) :=
  ⟨compute_sector_daily_row_spec df m row hrow,
   compute_sector_emb_row_spec dfe k m rowe hrowe⟩

/-- Witness for C5: one sector-tagged headline on date 0 in each variant
(the embedding-bearing one with two emb columns), minimum m = 3; both output
rows keep the accurate count 1 and have every value field — the embedding
averages included — suppressed. -/
theorem C5_low_count_suppression_witness :
    ((⟨0, none, none, none, 1, none⟩ : AggRow) ∈
        compute_sector_daily [⟨0, true, true, 1/2, 1/4, 1/4⟩] 3 ∧
     (⟨0, none, none, none, 1, none, none⟩ : AggRowEmb) ∈
        compute_sector_and_embeddings_daily_no_weekends
          [⟨0, true, 1/2, 1/4, 1/4, [1, 3]⟩] 2 3) ∧
    (⟨0, none, none, none, 1, none⟩ : AggRow).n =
      (sectorOn [⟨0, true, true, 1/2, 1/4, 1/4⟩] 0).length ∧
    (⟨0, none, none, none, 1, none⟩ : AggRow).avgPositive = none ∧
    (⟨0, none, none, none, 1, none, none⟩ : AggRowEmb).n =
      (sectorOnEmb [⟨0, true, 1/2, 1/4, 1/4, [1, 3]⟩] 0).length ∧
    (⟨0, none, none, none, 1, none, none⟩ : AggRowEmb).avgEmbedding = none := by
  have hmem : (⟨0, none, none, none, 1, none⟩ : AggRow) ∈
      compute_sector_daily [⟨0, true, true, 1/2, 1/4, 1/4⟩] 3 := by
    norm_num [compute_sector_daily, groupAgg, sortedKeys, aggRowAt, sectorOn, mean,
      List.insertionSort, List.orderedInsert, List.dedup_cons_of_not_mem]
  have hmemE : (⟨0, none, none, none, 1, none, none⟩ : AggRowEmb) ∈
      compute_sector_and_embeddings_daily_no_weekends
        [⟨0, true, 1/2, 1/4, 1/4, [1, 3]⟩] 2 3 := by
    norm_num [compute_sector_and_embeddings_daily_no_weekends, aggRowEmbAt,
      sortedKeys, mean, meanVec, List.insertionSort, List.orderedInsert,
      List.dedup_cons_of_not_mem]
  have h := C5_low_count_suppression _ _ 2 3 _ _ hmem hmemE
  exact ⟨⟨hmem, hmemE⟩, h.1.1, (h.1.2.1 (by norm_num)).1, h.2.1,
    (h.2.2.1 (by norm_num)).2.2.2.2⟩

/-- C6: for every non-suppressed row produced by the Sector Sentiment
Aggregator, the sentiment index equals the mean positive score minus the mean
negative score of that day's sector-tagged headlines, exactly. -/
theorem C6_sentiment_index_identity (df : List Headline) (m : ℕ) (row : AggRow)
    (hrow : row ∈ compute_sector_daily df m) (hns : row.sentIndex ≠ none) :
    row.sentIndex = some (mean ((sectorOn df row.date).map (·.positive)) -
      mean ((sectorOn df row.date).map (·.negative))) ∧
    ∃ ap an, row.avgPositive = some ap ∧ row.avgNegative = some an ∧
      row.sentIndex = some (ap - an) := by
  have h := compute_sector_daily_row_spec df m row hrow
  have hm : m ≤ row.n := by
    by_contra hlt
    push_neg at hlt
    exact hns (h.2.1 hlt).2.2.2
  rcases h.2.2 hm with ⟨hp, -, hn, hs⟩
  exact ⟨hs, _, _, hp, hn, hs⟩

/-- Witness for C6: two sector-tagged headlines on date 0, minimum m = 1; the
output row carries sent_index = 3/5 - 1/5 = 2/5 = avg_positive - avg_negative. -/
theorem C6_sentiment_index_witness :
    (⟨0, some (3/5), some (1/5), some (1/5), 2, some (2/5)⟩ : AggRow) ∈
      compute_sector_daily
        [⟨0, true, true, 1/2, 1/4, 1/4⟩, ⟨0, true, true, 7/10, 3/20, 3/20⟩] 1 ∧
    (⟨0, some (3/5), some (1/5), some (1/5), 2, some (2/5)⟩ : AggRow).sentIndex ≠ none ∧
    (⟨0, some (3/5), some (1/5), some (1/5), 2, some (2/5)⟩ : AggRow).sentIndex =
      some (mean ((sectorOn
        [⟨0, true, true, 1/2, 1/4, 1/4⟩, ⟨0, true, true, 7/10, 3/20, 3/20⟩] 0).map
          (·.positive)) -
        mean ((sectorOn
        [⟨0, true, true, 1/2, 1/4, 1/4⟩, ⟨0, true, true, 7/10, 3/20, 3/20⟩] 0).map
          (·.negative))) := by
  have hmem : (⟨0, some (3/5), some (1/5), some (1/5), 2, some (2/5)⟩ : AggRow) ∈
      compute_sector_daily
        [⟨0, true, true, 1/2, 1/4, 1/4⟩, ⟨0, true, true, 7/10, 3/20, 3/20⟩] 1 := by
    norm_num [compute_sector_daily, groupAgg, sortedKeys, aggRowAt, sectorOn, mean,
      List.insertionSort, List.orderedInsert, List.dedup_cons_of_not_mem]
  have hns : (⟨0, some (3/5), some (1/5), some (1/5), 2, some (2/5)⟩ : AggRow).sentIndex ≠
      none := by simp
  exact ⟨hmem, hns, (C6_sentiment_index_identity _ 1 _ hmem hns).1⟩

/-- C9 counterexample: `add_weighted_lag_feature` does not leave its input
table unchanged — `df[new_col_name] = result; return df` appends the column to
the caller's object in place, so the input observed after the call differs from
the input before the call. -/
theorem C9_mutation_counterexample :
    (add_weighted_lag_feature_df ⟨[1, 2], []⟩ [1] "w").1 ≠ (⟨[1, 2], []⟩ : LagDF) := by
  intro h
  have hextra := congrArg LagDF.extra h
  simp [add_weighted_lag_feature_df] at hextra

/-- C9 amended: `compute_sector_daily` does leave its input unchanged (it
copies first and returns a fresh aggregate table), but `add_weighted_lag_feature`
does not: it appends the new column to its argument in place and returns the
very same (mutated) table. -/
theorem C9_copy_semantics_amended (df : NewsDF) (m : ℕ) (ldf : LagDF)
    (w : List ℚ) (nm : String) :
    (compute_sector_daily_df df m).1 = df ∧
    (add_weighted_lag_feature_df ldf w nm).1 = (add_weighted_lag_feature_df ldf w nm).2 ∧
    (add_weighted_lag_feature_df ldf w nm).1 =
      { ldf with extra := ldf.extra ++ [(nm, add_weighted_lag_feature ldf.main w)] } :=
  ⟨rfl, rfl, rfl⟩

theorem shiftNextDay_cons₂ (r r' : PriceRow) (rest : List PriceRow) :
    shiftNextDay (r :: r' :: rest) = ⟨r, r'.ret, r'.sign⟩ :: shiftNextDay (r' :: rest) := rfl

theorem shiftNextDay_length : ∀ l : List PriceRow, (shiftNextDay l).length = l.length
  | [] => rfl
  | [_] => rfl
  | r :: r' :: rest => by
    rw [shiftNextDay_cons₂]
    simp only [List.length_cons, shiftNextDay_length (r' :: rest)]

theorem shiftNextDay_getElem : ∀ (l : List PriceRow) (i : ℕ), i + 1 < l.length →
    ∃ r r', l[i]? = some r ∧ l[i + 1]? = some r' ∧
      (shiftNextDay l)[i]? = some ⟨r, r'.ret, r'.sign⟩
  | [], _, h => by simp at h
  | [_], _, h => by simp at h
  | r :: r' :: _, 0, _ => ⟨r, r', rfl, by simp, by rw [shiftNextDay_cons₂]; simp⟩
  | _ :: r' :: rest, i + 1, h => by
    rcases shiftNextDay_getElem (r' :: rest) i (by simpa using h) with ⟨a, b, ha, hb, hs⟩
    refine ⟨a, b, by simpa using ha, by simpa using hb, ?_⟩
    rw [shiftNextDay_cons₂]
    simpa using hs

theorem shiftNextDay_last : ∀ l : List PriceRow, l ≠ [] →
    ∃ r, l[l.length - 1]? = some r ∧
      (shiftNextDay l)[l.length - 1]? = some ⟨r, none, none⟩
  | [], h => absurd rfl h
  | [r], _ => ⟨r, rfl, rfl⟩
  | r :: r' :: rest, _ => by
    rcases shiftNextDay_last (r' :: rest) (by simp) with ⟨a, ha, hs⟩
    refine ⟨a, ?_, ?_⟩
    · simpa using ha
    · rw [shiftNextDay_cons₂]
      simpa using hs

/-- C1: for every price table containing only trading days (of an arbitrary
trading calendar) and sorted strictly ascending by date,
`add_next_day_cols_FIXED` gives row i exactly row i+1's Return as
Return_next_day and row i+1's Sign as Sign_next_day — a pure row shift on the
trading-day-only table, so the dates of the two rows may be separated by any
number of non-trading calendar days without changing the result — and the last
row's next-day fields are missing. -/
theorem C1_next_day_alignment (tradingDay : ℕ → Bool) (rows : List PriceRow)
    (hsorted : rows.Sorted (fun a b => a.date < b.date))
    (htrading : ∀ r ∈ rows, tradingDay r.date = true) :
    (add_next_day_cols_FIXED rows).length = rows.length ∧
    (∀ i, i + 1 < rows.length →
      ∃ r r', rows[i]? = some r ∧ rows[i + 1]? = some r' ∧
        (add_next_day_cols_FIXED rows)[i]? = some ⟨r, r'.ret, r'.sign⟩) ∧
    (rows ≠ [] →
      ∃ r, (add_next_day_cols_FIXED rows)[rows.length - 1]? = some ⟨r, none, none⟩) := by
  have hle : rows.Sorted (fun a b => a.date ≤ b.date) :=
    hsorted.imp (fun h => le_of_lt h)
  have hid : rows.insertionSort (fun a b => a.date ≤ b.date) = rows :=
    List.Sorted.insertionSort_eq hle
  unfold add_next_day_cols_FIXED
  rw [hid]
  refine ⟨shiftNextDay_length rows, fun i hi => shiftNextDay_getElem rows i hi, fun hne => ?_⟩
  rcases shiftNextDay_last rows hne with ⟨r, -, hs⟩
  exact ⟨r, hs⟩

/-- Witness for C1 at the spec's end-to-end example: Fri 2020-01-03 (price 10)
and Mon 2020-01-06 (price 11, return 0.10), dates encoded as day numbers 3 and
6 — two non-trading days in between.  Friday's row gets Return_next_day 1/10;
Monday, the last trading day, gets a missing next-day target. -/
theorem C1_next_day_alignment_witness :
    (([⟨3, 10, none, none⟩, ⟨6, 11, some (1/10), some 1⟩] :
        List PriceRow).Sorted (fun a b => a.date < b.date) ∧
     (∀ r ∈ ([⟨3, 10, none, none⟩, ⟨6, 11, some (1/10), some 1⟩] : List PriceRow),
       (fun d => decide (d ≠ 4 ∧ d ≠ 5)) r.date = true)) ∧
    (add_next_day_cols_FIXED [⟨3, 10, none, none⟩, ⟨6, 11, some (1/10), some 1⟩])[0]? =
      some ⟨⟨3, 10, none, none⟩, some (1/10), some 1⟩ ∧
    (∃ r, (add_next_day_cols_FIXED
        [⟨3, 10, none, none⟩, ⟨6, 11, some (1/10), some 1⟩])[2 - 1]? =
      some ⟨r, none, none⟩) := by
  have hsorted : ([⟨3, 10, none, none⟩, ⟨6, 11, some (1/10), some 1⟩] :
      List PriceRow).Sorted (fun a b => a.date < b.date) := by
    simp [List.sorted_cons]
  have htrading : ∀ r ∈ ([⟨3, 10, none, none⟩, ⟨6, 11, some (1/10), some 1⟩] :
      List PriceRow), (fun d => decide (d ≠ 4 ∧ d ≠ 5)) r.date = true := by
    intro r hr
    simp only [List.mem_cons, List.not_mem_nil, or_false] at hr
    rcases hr with rfl | rfl <;> decide
  have h := C1_next_day_alignment (fun d => decide (d ≠ 4 ∧ d ≠ 5))
    [⟨3, 10, none, none⟩, ⟨6, 11, some (1/10), some 1⟩] hsorted htrading
  refine ⟨⟨hsorted, htrading⟩, ?_, h.2.2 (by simp)⟩
  rcases h.2.1 0 (by norm_num) with ⟨r, r', hr, hr', hs⟩
  have hr0 : r = ⟨3, 10, none, none⟩ := by
    have := hr
    simp only [List.getElem?_cons_zero, Option.some.injEq] at this
    exact this.symm
  have hr1 : r' = ⟨6, 11, some (1/10), some 1⟩ := by
    have := hr'
    simp only [List.getElem?_cons_succ, List.getElem?_cons_zero, Option.some.injEq] at this
    exact this.symm
  rw [hr0, hr1] at hs
  exact hs

/-- C4 (code bug): `preprocess_file` computes `Return` with `pct_change()` on
the file's row order — it never sorts, contradicting its own docstring
("sorts by Date, calculates the daily return and its sign"), and it raises no
error on duplicate dates.  At the unsorted input [(date 2, price 10),
(date 1, price 20)] the code assigns date 1 the return 20/10 - 1 = 1, while
the docstring/spec computation (sort, then pct_change) assigns date 2 the
return 10/20 - 1 = -1/2; a duplicate-date input is processed silently. -/
theorem C4_returns_computed_without_sorting :
    (preprocess_file [⟨2, 10⟩, ⟨1, 20⟩]).map (fun p => (p.1.date, p.2.1)) =
      [(2, none), (1, some 1)] ∧
    (preprocess_file_sorted [⟨2, 10⟩, ⟨1, 20⟩]).map (fun p => (p.1.date, p.2.1)) =
      [(1, none), (2, some (-(1/2)))] ∧
    (preprocess_file [⟨2, 10⟩, ⟨1, 20⟩]).map (fun p => (p.1.date, p.2.1)) ≠
      (preprocess_file_sorted [⟨2, 10⟩, ⟨1, 20⟩]).map (fun p => (p.1.date, p.2.1)) ∧
    (preprocess_file [⟨1, 10⟩, ⟨1, 20⟩]).length = 2 := by
  refine ⟨?_, ?_, ?_, ?_⟩ <;>
    norm_num [preprocess_file, preprocess_file_sorted, pct_change, ratSign,
      List.insertionSort, List.orderedInsert]

theorem sortedKeys_sorted (ds : List ℕ) : (sortedKeys ds).Sorted (· < ·) := by
  have hnodup : (sortedKeys ds).Nodup :=
    ((List.perm_insertionSort _ _).nodup_iff).mpr (List.nodup_dedup ds)
  exact (List.sorted_insertionSort _ _).lt_of_le hnodup

theorem dateFlags_keys (news : List Headline) :
    (dateFlags news).map (·.1) = sortedKeys (news.map (·.date)) := by
  unfold dateFlags
  rw [List.map_map]
  exact List.map_id _

theorem dateFlags_sorted (news : List Headline) :
    ((dateFlags news).map (·.1)).Sorted (· < ·) := by
  rw [dateFlags_keys]
  exact sortedKeys_sorted _

theorem mem_dateFlags {news : List Headline} {p : ℕ × Bool} :
    p ∈ dateFlags news ↔ p.1 ∈ news.map (·.date) ∧ p.2 = flagOfDate news p.1 := by
  unfold dateFlags
  rw [List.mem_map]
  constructor
  · rintro ⟨d, hd, rfl⟩
    exact ⟨mem_sortedKeys.mp hd, rfl⟩
  · rintro ⟨hd, hp⟩
    refine ⟨p.1, mem_sortedKeys.mpr hd, ?_⟩
    rw [← hp]

theorem bfillTradingDate_cons (d : ℕ) (f : Bool) (rest : List (ℕ × Bool)) :
    bfillTradingDate ((d, f) :: rest) =
      (d, if f then some d else (bfillTradingDate rest).head?.bind (·.2)) ::
        bfillTradingDate rest := rfl

theorem bfill_headVal : ∀ l : List (ℕ × Bool),
    (bfillTradingDate l).head?.bind (·.2) = ((l.filter (fun p => p.2)).head?).map (·.1)
  | [] => rfl
  | (d, f) :: rest => by
    rw [bfillTradingDate_cons]
    cases f
    · simpa [List.filter_cons] using bfill_headVal rest
    · simp [List.filter_cons]

theorem bfill_lookup : ∀ l : List (ℕ × Bool), ((l.map (·.1)).Sorted (· < ·)) →
    ∀ d f, (d, f) ∈ l → (bfillTradingDate l).lookup d = some (firstTradingGE l d)
  | [], _, d, f, h => absurd h (List.not_mem_nil _)
  | (d₀, f₀) :: rest, hs, d, f, hmem => by
    rw [bfillTradingDate_cons]
    rw [List.map_cons] at hs
    have hs' := (List.sorted_cons.mp hs).2
    have hlt : ∀ p ∈ rest, d₀ < p.1 := fun p hp =>
      (List.sorted_cons.mp hs).1 p.1 (List.mem_map.mpr ⟨p, hp, rfl⟩)
    rcases List.mem_cons.mp hmem with heq | hmem'
    · have hd : d = d₀ := congrArg Prod.fst heq
      subst hd
      rw [List.lookup_cons]
      have hbeq : (d == d) = true := beq_self_eq_true d
      rw [hbeq]
      unfold firstTradingGE
      cases f₀
      · -- non-trading head: bfill takes the next non-null below, the filter
        -- drops the head; all remaining keys are ≥ d so the date test is true
        have hfc : List.filter (fun p => decide (d ≤ p.1) && p.2) ((d, false) :: rest) =
            rest.filter (fun p => p.2) := by
          rw [List.filter_cons]
          simp only [Bool.and_false, if_false]
          apply List.filter_congr
          intro p hp
          have := hlt p hp
          have hle : decide (d ≤ p.1) = true := by simp; omega
          rw [hle, Bool.true_and]
        rw [hfc, if_neg (by simp)]
        rw [bfill_headVal rest]
      · have hfc : List.filter (fun p => decide (d ≤ p.1) && p.2) ((d, true) :: rest) =
            (d, true) :: rest.filter (fun p => decide (d ≤ p.1) && p.2) := by
          rw [List.filter_cons]
          simp
        rw [hfc, if_pos rfl]
        simp
    · have hne : (d == d₀) = false := by
        have := hlt (d, f) hmem'
        exact beq_eq_false_iff_ne.mpr (by omega)
      rw [List.lookup_cons, hne]
      rw [bfill_lookup rest hs' d f hmem']
      unfold firstTradingGE
      have hfc : List.filter (fun p => decide (d ≤ p.1) && p.2) ((d₀, f₀) :: rest) =
          rest.filter (fun p => decide (d ≤ p.1) && p.2) := by
        rw [List.filter_cons]
        have := hlt (d, f) hmem'
        have hle : decide (d ≤ d₀) = false := by simp; omega
        rw [hle, Bool.false_and, if_neg (by simp)]
      rw [hfc]

theorem tradingDateOf_eq_firstTradingGE (news : List Headline) (d : ℕ)
    (hd : d ∈ news.map (·.date)) :
    tradingDateOf news d = firstTradingGE (dateFlags news) d := by
  have hmem : (d, flagOfDate news d) ∈ dateFlags news := mem_dateFlags.mpr ⟨hd, rfl⟩
  have h := bfill_lookup (dateFlags news) (dateFlags_sorted news) d _ hmem
  rw [tradingDateOf, h]
  rfl

theorem flagOfDate_eq_dateIsTrading {news : List Headline} (hcons : Consistent news)
    {d : ℕ} (hd : d ∈ news.map (·.date)) :
    flagOfDate news d = dateIsTrading news d := by
  rcases List.mem_map.mp hd with ⟨h₀, hh₀, rfl⟩
  have hsome : (news.find? (fun h => h.date = h₀.date)).isSome :=
    List.find?_isSome.mpr ⟨h₀, hh₀, by simp⟩
  obtain ⟨hf, hfind⟩ := Option.isSome_iff_exists.mp hsome
  have hfmem := List.mem_of_find?_eq_some hfind
  have hfdate : hf.date = h₀.date := by simpa using List.find?_some hfind
  rw [flagOfDate, hfind]
  simp only [Option.map_some', Option.getD_some]
  unfold dateIsTrading
  cases htd : hf.isTradingDay
  · symm
    rw [List.any_eq_false]
    intro h hh
    simp only [Bool.and_eq_true, decide_eq_true_eq, not_and]
    intro hhd
    have := hcons h hh hf hfmem (by rw [hhd, hfdate])
    rw [this, htd]
    simp
  · symm
    rw [List.any_eq_true]
    exact ⟨hf, hfmem, by simp [hfdate, htd]⟩

theorem head_filter_spec {l : List (ℕ × Bool)} (hs : (l.map (·.1)).Sorted (· < ·))
    {q : ℕ × Bool → Bool} {a : ℕ × Bool} (ha : (l.filter q).head? = some a) :
    a ∈ l ∧ q a = true ∧ ∀ p' ∈ l, q p' = true → a.1 ≤ p'.1 := by
  have hsub : (l.filter q).Sublist l := List.filter_sublist l
  cases hfq : l.filter q with
  | nil => rw [hfq] at ha; simp at ha
  | cons b tail =>
    rw [hfq] at ha
    have hab : b = a := by simpa using ha
    subst hab
    have hbf : b ∈ l.filter q := by rw [hfq]; exact List.mem_cons_self b tail
    refine ⟨List.mem_of_mem_filter hbf, List.of_mem_filter hbf, ?_⟩
    intro p' hp' hq'
    have hp'f : p' ∈ l.filter q := List.mem_filter.mpr ⟨hp', hq'⟩
    have hfs : ((l.filter q).map (·.1)).Sorted (· < ·) :=
      List.Pairwise.sublist (hsub.map _) hs
    rw [hfq, List.map_cons] at hfs
    rw [hfq] at hp'f
    rcases List.mem_cons.mp hp'f with rfl | htail
    · exact le_refl _
    · have := (List.sorted_cons.mp hfs).1 p'.1 (List.mem_map.mpr ⟨p', htail, rfl⟩)
      omega

theorem head?_filter_eq_some_iff {l : List (ℕ × Bool)}
    (hs : (l.map (·.1)).Sorted (· < ·)) (q : ℕ × Bool → Bool) (p : ℕ × Bool) :
    (l.filter q).head? = some p ↔
      (p ∈ l ∧ q p = true ∧ ∀ p' ∈ l, q p' = true → p.1 ≤ p'.1) := by
  constructor
  · exact head_filter_spec hs
  · rintro ⟨hpl, hqp, hmin⟩
    have hpf : p ∈ l.filter q := List.mem_filter.mpr ⟨hpl, hqp⟩
    have hne : l.filter q ≠ [] := List.ne_nil_of_mem hpf
    have ha : (l.filter q).head? = some ((l.filter q).head hne) := List.head?_eq_head hne
    rcases head_filter_spec hs ha with ⟨hal, hqa, hamin⟩
    have hkeys : ((l.filter q).head hne).1 = p.1 :=
      le_antisymm (hamin p hpl hqp) (hmin _ hal hqa)
    have hnodup : (l.map (·.1)).Nodup := hs.imp (fun h => ne_of_lt h)
    have := List.inj_on_of_nodup_map hnodup hal hpl hkeys
    rw [ha, this]

theorem firstTradingGE_eq_some_iff {news : List Headline} (hcons : Consistent news)
    (d t : ℕ) :
    firstTradingGE (dateFlags news) d = some t ↔
      (t ∈ news.map (·.date) ∧ d ≤ t ∧ dateIsTrading news t = true ∧
        ∀ e ∈ news.map (·.date), d ≤ e → dateIsTrading news e = true → t ≤ e) := by
  unfold firstTradingGE
  rw [Option.map_eq_some']
  constructor
  · rintro ⟨p, hp, rfl⟩
    rcases head_filter_spec (dateFlags_sorted news) hp with ⟨hpl, hqp, hmin⟩
    rcases mem_dateFlags.mp hpl with ⟨hdates, hflag⟩
    rcases (Bool.and_eq_true _ _).mp hqp with ⟨hdle, hptrue⟩
    have htr : dateIsTrading news p.1 = true := by
      rw [← flagOfDate_eq_dateIsTrading hcons hdates, ← hflag]
      exact hptrue
    refine ⟨hdates, by simpa using hdle, htr, ?_⟩
    intro e he hde hetr
    have hpe : (e, flagOfDate news e) ∈ dateFlags news := mem_dateFlags.mpr ⟨he, rfl⟩
    have hq : (fun p => decide (d ≤ p.1) && p.2) (e, flagOfDate news e) = true := by
      simp only [decide_eq_true_eq]
      rw [flagOfDate_eq_dateIsTrading hcons he]
      simp [hde, hetr]
    exact hmin _ hpe hq
  · rintro ⟨ht, hdt, htr, hmin⟩
    refine ⟨(t, flagOfDate news t), ?_, rfl⟩
    rw [head?_filter_eq_some_iff (dateFlags_sorted news)]
    refine ⟨mem_dateFlags.mpr ⟨ht, rfl⟩, ?_, ?_⟩
    · simp only [decide_eq_true_eq]
      rw [flagOfDate_eq_dateIsTrading hcons ht]
      simp [hdt, htr]
    · intro p' hp' hq'
      rcases mem_dateFlags.mp hp' with ⟨hdates', hflag'⟩
      rcases (Bool.and_eq_true _ _).mp hq' with ⟨hdle', hptrue'⟩
      have htr' : dateIsTrading news p'.1 = true := by
        rw [← flagOfDate_eq_dateIsTrading hcons hdates', ← hflag']
        exact hptrue'
      exact hmin p'.1 hdates' (by simpa using hdle') htr'

theorem firstTradingGE_eq_none_of {news : List Headline} (hcons : Consistent news)
    (d : ℕ) (hnone : ∀ e ∈ news.map (·.date), d ≤ e → dateIsTrading news e = false) :
    firstTradingGE (dateFlags news) d = none := by
  unfold firstTradingGE
  have hnil : (dateFlags news).filter (fun p => decide (d ≤ p.1) && p.2) = [] := by
    rw [List.filter_eq_nil_iff]
    intro p hp
    rcases mem_dateFlags.mp hp with ⟨hdates, hflag⟩
    by_cases hdle : d ≤ p.1
    · have := hnone p.1 hdates hdle
      rw [flagOfDate_eq_dateIsTrading hcons hdates] at hflag
      simp [hflag, this]
    · simp [hdle]
  rw [hnil]
  rfl

theorem dateIsTrading_eq_of_mem {news : List Headline} (hcons : Consistent news)
    {h : Headline} (hh : h ∈ news) :
    dateIsTrading news h.date = h.isTradingDay := by
  unfold dateIsTrading
  cases htd : h.isTradingDay
  · rw [List.any_eq_false]
    intro h' hh'
    simp only [Bool.and_eq_true, decide_eq_true_eq, not_and]
    intro hd
    rw [hcons h' hh' h hh hd, htd]
    simp
  · rw [List.any_eq_true]
    exact ⟨h, hh, by simp [htd]⟩

theorem aggRowAt_n (rows : List ScoreRow) (m d : ℕ) :
    (aggRowAt rows m d).n = (rows.filter (fun r => r.key = d)).length := by
  unfold aggRowAt
  dsimp only
  split <;> rfl

/-- Counting through the `merge`/`dropna`/sector-filter/`groupby` chain: the
group at key `d` has exactly one member per headline that is sector-tagged and
mapped to `d`. -/
theorem mappedSector_count (g : Headline → Option ℕ) :
    ∀ (l : List Headline) (d : ℕ),
      ((((l.filterMap (fun h => (g h).map (fun td => (h, td)))).filter
          (fun p => p.1.sectorFlag)).map
          (fun p => (⟨p.2, p.1.positive, p.1.neutral, p.1.negative⟩ : ScoreRow))).filter
          (fun r => r.key = d)).length =
      (l.filter (fun h => h.sectorFlag ∧ g h = some d)).length
  | [], _ => rfl
  | h :: t, d => by
    have ih := mappedSector_count g t d
    cases hg : g h with
    | none =>
      rw [List.filterMap_cons, hg]
      simp only [List.filter_cons, decide_eq_true_eq, hg]
      simp [ih]
    | some td =>
      rw [List.filterMap_cons, hg]
      simp only [Option.map_some']
      cases hf : h.sectorFlag
      · simp only [List.filter_cons, decide_eq_true_eq, hf, hg]
        simp [ih]
      · by_cases htd : td = d
        · subst htd
          simp only [List.filter_cons, decide_eq_true_eq, hf, hg, List.map_cons]
          simp [ih]
        · simp only [List.filter_cons, decide_eq_true_eq, hf, hg, List.map_cons]
          simp [ih, htd]

/-- Every output row of the weekend-aggregated policy sits on a trading day of
the table and counts exactly the sector-tagged headlines mapped to it. -/
theorem output_date_spec {news : List Headline} {m : ℕ} {row : AggRow}
    (hcons : Consistent news)
    (hrow : row ∈ aggregate_to_next_trading_day_with_sectors news m) :
    row.date ∈ news.map (·.date) ∧ dateIsTrading news row.date = true ∧
    row.n = (news.filter (fun h => h.sectorFlag ∧
      tradingDateOf news h.date = some row.date)).length := by
  unfold aggregate_to_next_trading_day_with_sectors at hrow
  rcases mem_groupAgg hrow with ⟨d, hdkeys, hdate, heq⟩
  rcases List.mem_map.mp hdkeys with ⟨s, hs, hskey⟩
  rcases List.mem_map.mp hs with ⟨pr, hpr, hproj⟩
  have hprd : pr.2 = d := by rw [← hskey, ← hproj]
  have hpr' := List.mem_of_mem_filter hpr
  rcases List.mem_filterMap.mp hpr' with ⟨h, hh, hmap⟩
  rcases Option.map_eq_some'.mp hmap with ⟨td, htd, hpair⟩
  have htdd : tradingDateOf news h.date = some d := by
    rw [htd]
    rw [← hpair] at hprd
    simp at hprd
    rw [hprd]
  have hhd : h.date ∈ news.map (·.date) := List.mem_map.mpr ⟨h, hh, rfl⟩
  rw [tradingDateOf_eq_firstTradingGE news h.date hhd] at htdd
  rcases (firstTradingGE_eq_some_iff hcons h.date d).mp htdd with ⟨hdmem, -, hdtr, -⟩
  subst hdate
  refine ⟨hdmem, hdtr, ?_⟩
  conv_lhs => rw [← heq]
  rw [aggRowAt_n]
  exact mappedSector_count (fun h => tradingDateOf news h.date) news row.date

/-- C2: in the weekend-aggregated policy, (a) every headline dated on a
trading day is aggregated onto that same date; (b) every headline dated on a
non-trading day is aggregated onto the earliest trading date after it (among
the loaded dates — the only calendar the code consults); (c) for every output
trading day with predecessor trading day p, the reported count equals the
number of sector-tagged headlines dated strictly after p and at most the
output date; (d) the output contains only trading days. -/
theorem C2_weekend_aggregation (news : List Headline) (m : ℕ) (hcons : Consistent news) :
    (∀ h ∈ news, h.isTradingDay = true → tradingDateOf news h.date = some h.date) ∧
    (∀ h ∈ news, h.isTradingDay = false → ∀ t,
      (tradingDateOf news h.date = some t ↔
        (t ∈ news.map (·.date) ∧ h.date < t ∧ dateIsTrading news t = true ∧
          ∀ e ∈ news.map (·.date), h.date ≤ e → dateIsTrading news e = true → t ≤ e))) ∧
    (∀ row ∈ aggregate_to_next_trading_day_with_sectors news m, ∀ p,
      p ∈ news.map (·.date) → dateIsTrading news p = true → p < row.date →
      (∀ e ∈ news.map (·.date), dateIsTrading news e = true → e < row.date → e ≤ p) →
      row.n = (news.filter (fun h => h.sectorFlag ∧ p < h.date ∧
        h.date ≤ row.date)).length) ∧
    (∀ row ∈ aggregate_to_next_trading_day_with_sectors news m,
      dateIsTrading news row.date = true) := by
  refine ⟨?_, ?_, ?_, ?_⟩
  · intro h hh htd
    have hd : h.date ∈ news.map (·.date) := List.mem_map.mpr ⟨h, hh, rfl⟩
    rw [tradingDateOf_eq_firstTradingGE news h.date hd,
        firstTradingGE_eq_some_iff hcons]
    refine ⟨hd, le_refl _, ?_, fun e _ hde _ => hde⟩
    rw [dateIsTrading_eq_of_mem hcons hh]
    exact htd
  · intro h hh htd t
    have hd : h.date ∈ news.map (·.date) := List.mem_map.mpr ⟨h, hh, rfl⟩
    rw [tradingDateOf_eq_firstTradingGE news h.date hd,
        firstTradingGE_eq_some_iff hcons]
    have hnt : dateIsTrading news h.date = false := by
      rw [dateIsTrading_eq_of_mem hcons hh]
      exact htd
    constructor
    · rintro ⟨ht, hle, htr, hmin⟩
      refine ⟨ht, ?_, htr, hmin⟩
      rcases lt_or_eq_of_le hle with hlt | heq
      · exact hlt
      · exfalso
        rw [← heq, hnt] at htr
        exact Bool.false_ne_true htr
    · rintro ⟨ht, hlt, htr, hmin⟩
      exact ⟨ht, le_of_lt hlt, htr, hmin⟩
  · intro row hrow p hp hptr hplt hpmax
    rcases output_date_spec hcons hrow with ⟨hdd, hdtr, hcount⟩
    rw [hcount]
    congr 1
    apply List.filter_congr
    intro h hh
    have hhd : h.date ∈ news.map (·.date) := List.mem_map.mpr ⟨h, hh, rfl⟩
    apply decide_eq_decide.mpr
    rw [tradingDateOf_eq_firstTradingGE news h.date hhd,
        firstTradingGE_eq_some_iff hcons]
    constructor
    · rintro ⟨hflag, -, hle, -, hmin⟩
      refine ⟨hflag, ?_, hle⟩
      by_contra hple
      push_neg at hple
      exact absurd (hmin p hp hple hptr) (by omega)
    · rintro ⟨hflag, hp1, hp2⟩
      refine ⟨hflag, hdd, hp2, hdtr, ?_⟩
      intro e he hde hetr
      by_contra hlt
      push_neg at hlt
      have := hpmax e he hetr hlt
      omega
  · intro row hrow
    exact (output_date_spec hcons hrow).2.1

/-- Witness for C2 on the three-day example (trading 1, non-trading 2,
trading 3): the consistency hypothesis holds and a trading-day headline is
aggregated onto its own date. -/
theorem C2_weekend_aggregation_witness :
    Consistent newsExample ∧ tradingDateOf newsExample 1 = some 1 := by
  have hcons : Consistent newsExample := by unfold Consistent; decide
  exact ⟨hcons, (C2_weekend_aggregation newsExample 1 hcons).1
    ⟨1, true, true, 1, 0, 0⟩ (List.mem_cons_self _ _) rfl⟩

/-- C3 counterexample: a headline dated on a non-trading day with no trading
day after it in the loaded horizon gets a null TradingDate and is silently
dropped by `dropna(subset=["TradingDate"])` — the output is empty and no
exception occurs; no `NoTradingDayFoundError` (or any error class) exists in
the source. -/
theorem C3_no_error_counterexample :
    tradingDateOf newsNoNext 1 = none ∧
    aggregate_to_next_trading_day_with_sectors newsNoNext 1 = [] := by
  constructor
  · decide
  · decide

/-- C3 amended: for every headline date with no trading day at or after it
among the loaded dates, the TradingDate mapping is null and the aggregation
silently drops the headline — its date never reaches the output and no error
is raised (the function is total). -/
theorem C3_silent_drop_amended (news : List Headline) (m : ℕ) (hcons : Consistent news)
    (h : Headline) (hh : h ∈ news)
    (hnone : ∀ e ∈ news.map (·.date), h.date ≤ e → dateIsTrading news e = false) :
    tradingDateOf news h.date = none ∧
    ∀ row ∈ aggregate_to_next_trading_day_with_sectors news m, row.date ≠ h.date := by
  have hd : h.date ∈ news.map (·.date) := List.mem_map.mpr ⟨h, hh, rfl⟩
  refine ⟨?_, ?_⟩
  · rw [tradingDateOf_eq_firstTradingGE news h.date hd]
    exact firstTradingGE_eq_none_of hcons h.date hnone
  · intro row hrow heq
    have hspec := (output_date_spec hcons hrow).2.1
    rw [heq, hnone h.date hd (le_refl _)] at hspec
    exact Bool.false_ne_true hspec

theorem C3_silent_drop_witness :
    (Consistent newsNoNext ∧
      (⟨1, false, true, 1, 0, 0⟩ : Headline) ∈ newsNoNext ∧
      (∀ e ∈ newsNoNext.map (·.date),
        (⟨1, false, true, 1, 0, 0⟩ : Headline).date ≤ e →
        dateIsTrading newsNoNext e = false)) ∧
    tradingDateOf newsNoNext (⟨1, false, true, 1, 0, 0⟩ : Headline).date = none := by
  have hcons : Consistent newsNoNext := by unfold Consistent; decide
  have hh : (⟨1, false, true, 1, 0, 0⟩ : Headline) ∈ newsNoNext := List.mem_cons_self _ _
  have hnone : ∀ e ∈ newsNoNext.map (·.date),
      (⟨1, false, true, 1, 0, 0⟩ : Headline).date ≤ e →
      dateIsTrading newsNoNext e = false := by decide
  exact ⟨⟨hcons, hh, hnone⟩, (C3_silent_drop_amended newsNoNext 1 hcons _ hh hnone).1⟩

theorem dropWhile_head_not (p : ℕ → Bool) : ∀ (l : List ℕ) (c : ℕ),
    (l.dropWhile p).head? = some c → p c = false
  | [], c, h => by simp at h
  | x :: xs, c, h => by
    rw [List.dropWhile_cons] at h
    by_cases hx : p x = true
    · rw [if_pos hx] at h
      exact dropWhile_head_not p xs c h
    · rw [if_neg hx] at h
      have : x = c := by simpa using h
      subst this
      simpa using hx

theorem dropWhile_eq_self_of_head (p : ℕ → Bool) (l : List ℕ)
    (h : ∀ c, l.head? = some c → p c = false) : l.dropWhile p = l := by
  cases l with
  | nil => rfl
  | cons x xs =>
    rw [List.dropWhile_cons, if_neg]
    simp [h x rfl]

theorem mem_of_mem_dropWhile (p : ℕ → Bool) : ∀ (l : List ℕ) (c : ℕ),
    c ∈ l.dropWhile p → c ∈ l
  | [], _, h => h
  | x :: xs, c, h => by
    rw [List.dropWhile_cons] at h
    by_cases hx : p x = true
    · rw [if_pos hx] at h
      exact List.mem_cons_of_mem x (mem_of_mem_dropWhile p xs c h)
    · rw [if_neg hx] at h
      exact h

theorem chain'_dropWhile {R : ℕ → ℕ → Prop} (p : ℕ → Bool) :
    ∀ l : List ℕ, l.Chain' R → (l.dropWhile p).Chain' R
  | [], h => h
  | x :: xs, h => by
    rw [List.dropWhile_cons]
    by_cases hx : p x = true
    · rw [if_pos hx]
      exact chain'_dropWhile p xs h.tail
    · rw [if_neg hx]
      exact h

theorem collapseWsAux_cons (b : Bool) (x : ℕ) (xs : List ℕ) :
    collapseWsAux b (x :: xs) =
      if isWs x then (if b then collapseWsAux true xs else 0x20 :: collapseWsAux true xs)
      else x :: collapseWsAux false xs := rfl

theorem collapseWsAux_mem : ∀ (b : Bool) (s : List ℕ),
    ∀ c ∈ collapseWsAux b s, c = 0x20 ∨ c ∈ s
  | _, [], c, h => absurd h (List.not_mem_nil c)
  | b, x :: xs, c, h => by
    rw [collapseWsAux_cons] at h
    by_cases hx : isWs x = true
    · rw [if_pos hx] at h
      cases b with
      | false =>
        rw [if_neg (by simp)] at h
        rcases List.mem_cons.mp h with rfl | h'
        · exact Or.inl rfl
        · rcases collapseWsAux_mem true xs c h' with h20 | hmem
          · exact Or.inl h20
          · exact Or.inr (List.mem_cons_of_mem x hmem)
      | true =>
        rw [if_pos rfl] at h
        rcases collapseWsAux_mem true xs c h with h20 | hmem
        · exact Or.inl h20
        · exact Or.inr (List.mem_cons_of_mem x hmem)
    · rw [if_neg hx] at h
      rcases List.mem_cons.mp h with rfl | h'
      · exact Or.inr (List.mem_cons_self _ _)
      · rcases collapseWsAux_mem false xs c h' with h20 | hmem
        · exact Or.inl h20
        · exact Or.inr (List.mem_cons_of_mem x hmem)

theorem collapseWsAux_all20 : ∀ (b : Bool) (s : List ℕ),
    ∀ c ∈ collapseWsAux b s, isWs c = true → c = 0x20
  | _, [], c, h, _ => absurd h (List.not_mem_nil c)
  | b, x :: xs, c, h, hws => by
    rw [collapseWsAux_cons] at h
    by_cases hx : isWs x = true
    · rw [if_pos hx] at h
      cases b with
      | false =>
        rw [if_neg (by simp)] at h
        rcases List.mem_cons.mp h with rfl | h'
        · rfl
        · exact collapseWsAux_all20 true xs c h' hws
      | true =>
        rw [if_pos rfl] at h
        exact collapseWsAux_all20 true xs c h hws
    · rw [if_neg hx] at h
      rcases List.mem_cons.mp h with rfl | h'
      · exact absurd hws hx
      · exact collapseWsAux_all20 false xs c h' hws

theorem collapseWsAux_head_true_not_ws : ∀ (s : List ℕ) (c : ℕ),
    (collapseWsAux true s).head? = some c → isWs c = false
  | [], c, h => by simp [collapseWsAux] at h
  | x :: xs, c, h => by
    rw [collapseWsAux_cons] at h
    by_cases hx : isWs x = true
    · rw [if_pos hx, if_pos rfl] at h
      exact collapseWsAux_head_true_not_ws xs c h
    · rw [if_neg hx] at h
      have : x = c := by simpa using h
      subst this
      simpa using hx

theorem collapseWsAux_chain' : ∀ (b : Bool) (s : List ℕ),
    (collapseWsAux b s).Chain' (fun a c => ¬(isWs a = true ∧ isWs c = true))
  | _, [] => List.chain'_nil
  | b, x :: xs => by
    rw [collapseWsAux_cons]
    by_cases hx : isWs x = true
    · rw [if_pos hx]
      cases b with
      | true =>
        rw [if_pos rfl]
        exact collapseWsAux_chain' true xs
      | false =>
        rw [if_neg (by simp)]
        rw [List.chain'_cons']
        refine ⟨?_, collapseWsAux_chain' true xs⟩
        intro y hy
        have hyws := collapseWsAux_head_true_not_ws xs y (Option.mem_def.mp hy)
        rintro ⟨-, hwy⟩
        rw [hyws] at hwy
        exact Bool.false_ne_true hwy
    · rw [if_neg hx]
      rw [List.chain'_cons']
      refine ⟨?_, collapseWsAux_chain' false xs⟩
      intro y _
      rintro ⟨hwx, -⟩
      exact hx hwx

theorem collapseWsAux_eq_self : ∀ (s : List ℕ) (b : Bool),
    (∀ c ∈ s, isWs c = true → c = 0x20) →
    s.Chain' (fun a c => ¬(isWs a = true ∧ isWs c = true)) →
    (b = true → ∀ c, s.head? = some c → isWs c = false) →
    collapseWsAux b s = s
  | [], _, _, _, _ => rfl
  | x :: xs, b, h20, hch, hb => by
    rw [collapseWsAux_cons]
    by_cases hx : isWs x = true
    · have hbf : b = false := by
        cases b
        · rfl
        · exact absurd hx (by rw [hb rfl x rfl]; simp)
      subst hbf
      rw [if_pos hx, if_neg (by simp)]
      have hx20 : x = 0x20 := h20 x (List.mem_cons_self _ _) hx
      have hxs : collapseWsAux true xs = xs := by
        apply collapseWsAux_eq_self xs true
          (fun c hc => h20 c (List.mem_cons_of_mem _ hc))
          ((List.chain'_cons'.mp hch).2)
        intro _ c hc
        have hrel := (List.chain'_cons'.mp hch).1 c (Option.mem_def.mpr hc)
        cases hic : isWs c
        · rfl
        · exact absurd ⟨hx, hic⟩ hrel
      rw [hxs, hx20]
    · rw [if_neg hx]
      have hxs : collapseWsAux false xs = xs :=
        collapseWsAux_eq_self xs false
          (fun c hc => h20 c (List.mem_cons_of_mem _ hc))
          ((List.chain'_cons'.mp hch).2)
          (fun h => absurd h (by simp))
      rw [hxs]

theorem mem_of_mem_stripWs (s : List ℕ) : ∀ c ∈ stripWs s, c ∈ s := by
  intro c hc
  unfold stripWs at hc
  rw [List.mem_reverse] at hc
  have hc2 := mem_of_mem_dropWhile isWs _ c hc
  rw [List.mem_reverse] at hc2
  exact mem_of_mem_dropWhile isWs s c hc2

theorem stripWs_chain' (s : List ℕ)
    (h : s.Chain' (fun a c => ¬(isWs a = true ∧ isWs c = true))) :
    (stripWs s).Chain' (fun a c => ¬(isWs a = true ∧ isWs c = true)) := by
  unfold stripWs
  have h1 := chain'_dropWhile isWs s h
  have h2 : ((s.dropWhile isWs).reverse).Chain'
      (fun a c => ¬(isWs a = true ∧ isWs c = true)) := by
    rw [List.chain'_reverse]
    exact h1.imp (fun _ _ hab hba => hab ⟨hba.2, hba.1⟩)
  have h3 := chain'_dropWhile isWs _ h2
  rw [List.chain'_reverse]
  exact h3.imp (fun _ _ hab hba => hab ⟨hba.2, hba.1⟩)

theorem stripWs_idem (s : List ℕ) : stripWs (stripWs s) = stripWs s := by
  unfold stripWs
  have hDrv : (((s.dropWhile isWs).reverse.dropWhile isWs).reverse).dropWhile isWs =
      ((s.dropWhile isWs).reverse.dropWhile isWs).reverse := by
    apply dropWhile_eq_self_of_head
    intro c hc
    rw [List.head?_reverse] at hc
    obtain ⟨pre, hpre⟩ := List.dropWhile_suffix (l := (s.dropWhile isWs).reverse) isWs
    have hlast : ((s.dropWhile isWs).reverse).getLast? = some c := by
      rw [← hpre, List.getLast?_append, hc]
      rfl
    rw [List.getLast?_reverse] at hlast
    exact dropWhile_head_not isWs s c hlast
  rw [hDrv, List.reverse_reverse]
  have hDv : ((s.dropWhile isWs).reverse.dropWhile isWs).dropWhile isWs =
      (s.dropWhile isWs).reverse.dropWhile isWs := by
    apply dropWhile_eq_self_of_head
    intro c hc
    exact dropWhile_head_not isWs _ c hc
  rw [hDv]

theorem clean_headlines_no_zw (s : List ℕ) :
    ∀ c ∈ clean_headlines s, zeroWidthChars.contains c = false := by
  intro c hc
  unfold clean_headlines at hc
  have hc1 := mem_of_mem_stripWs _ c hc
  rcases collapseWsAux_mem false _ c hc1 with h20 | hmem
  · subst h20
    decide
  · have hfil := List.of_mem_filter hmem
    simp only [Bool.not_eq_true'] at hfil
    exact hfil

theorem removeZeroWidth_clean (s : List ℕ) :
    removeZeroWidth (clean_headlines s) = clean_headlines s := by
  unfold removeZeroWidth
  rw [List.filter_eq_self]
  intro c hc
  simp only [Bool.not_eq_true']
  exact clean_headlines_no_zw s c hc

theorem clean_headlines_all20 (s : List ℕ) :
    ∀ c ∈ clean_headlines s, isWs c = true → c = 0x20 := by
  intro c hc hws
  unfold clean_headlines at hc
  exact collapseWsAux_all20 false _ c (mem_of_mem_stripWs _ c hc) hws

theorem clean_headlines_chain' (s : List ℕ) :
    (clean_headlines s).Chain' (fun a c => ¬(isWs a = true ∧ isWs c = true)) := by
  unfold clean_headlines
  exact stripWs_chain' _ (collapseWsAux_chain' false _)

theorem collapseWs_clean (s : List ℕ) :
    collapseWs (clean_headlines s) = clean_headlines s := by
  unfold collapseWs
  exact collapseWsAux_eq_self _ false (clean_headlines_all20 s) (clean_headlines_chain' s)
    (fun h => absurd h (by simp))

theorem stripWs_clean (s : List ℕ) :
    stripWs (clean_headlines s) = clean_headlines s := by
  unfold clean_headlines
  exact stripWs_idem _

theorem clean_headlines_idem_of_fixed (s : List ℕ)
    (hfix : nfkc (clean_headlines s) = clean_headlines s) :
    clean_headlines (clean_headlines s) = clean_headlines s := by
  have hdef : clean_headlines (clean_headlines s) =
      stripWs (collapseWs (removeZeroWidth (nfkc (clean_headlines s)))) := rfl
  rw [hdef, hfix, removeZeroWidth_clean, collapseWs_clean, stripWs_clean]

/-- C10 counterexample: `clean_headlines` is not idempotent.  For the headline
"a" + ZERO WIDTH JOINER + COMBINING ACUTE ACCENT, NFKC leaves the string
unchanged (the joiner, with combining class 0, blocks composition), the
zero-width removal then yields "a" + COMBINING ACUTE — no longer
NFKC-normalized — and a second application composes it to "á" (U+00E1), so
cleaning twice differs from cleaning once. -/
theorem C10_not_idempotent_counterexample :
    clean_headlines_series (clean_headlines_series [[0x61, 0x200D, 0x301]]) ≠
      clean_headlines_series [[0x61, 0x200D, 0x301]] := by decide

/-- C10 amended: `clean_headlines` is idempotent on every series of strings
whose cleaned form is still NFKC-normalized (in particular, whenever no
combining mark was separated from its base only by removed zero-width
characters); removing zero-width characters can denormalize, which is the one
obstruction. -/
theorem C10_clean_idem_amended (ss : List (List ℕ))
    (hfix : ∀ s ∈ ss, nfkc (clean_headlines s) = clean_headlines s) :
    clean_headlines_series (clean_headlines_series ss) = clean_headlines_series ss := by
  unfold clean_headlines_series
  rw [List.map_map]
  apply List.map_congr_left
  intro s hs
  simp only [Function.comp_apply]
  exact clean_headlines_idem_of_fixed s (hfix s hs)

theorem C10_clean_idem_witness :
    (∀ s ∈ [[0x68, 0x69]], nfkc (clean_headlines s) = clean_headlines s) ∧
    clean_headlines_series (clean_headlines_series [[0x68, 0x69]]) =
      clean_headlines_series [[0x68, 0x69]] := by
  have hfix : ∀ s ∈ [[0x68, 0x69]], nfkc (clean_headlines s) = clean_headlines s := by
    decide
  exact ⟨hfix, C10_clean_idem_amended [[0x68, 0x69]] hfix⟩

end SentimentPipeline
